import Mathlib

/-!
Verification of the tick-scheduling engine in `src/trader/controller.py`.

The embedding models timestamps and intervals as integers (seconds), a
Broker as the ordered log of operations applied to it, and the threaded
run loop as a function of the tick sequence together with the sequence of
readings of the `stop_requested` flag (one reading per check the loop
performs).  Exceptions raised by strategy calls are modelled with `Option`.
-/

set_option autoImplicit false

namespace Trader

/-- A tick is a timestamp, modelled as an integer number of seconds. -/
abbrev Tick := Int

/-- Configuration of `SimulatedClock` (`src/trader/controller.py`):
`start`, `stop` timestamps and the `interval` in seconds
(`timedelta(seconds=interval)` in the source). -/
structure SimulatedClock where
  start : Int
  stop : Int
  interval : Int
deriving Repr, DecidableEq

/-- The kind of error the spec proposes for bad clock configuration. -/
inductive ConfigError where
  | invalidInterval
deriving Repr, DecidableEq

/-- Translated from `SimulatedClock.__init__`: it stores the three fields and
performs no validation whatsoever, so construction never raises.  The
`Except` result records whether a configuration error is raised. -/
def mkSimulatedClock (start stop interval : Int) : Except ConfigError SimulatedClock :=
  Except.ok ⟨start, stop, interval⟩

/-- The `while current < stop` loop of `SimulatedClock.__iter__`, with a fuel
argument bounding the number of iterations that are unfolded.  For a positive
interval the source loop performs at most `(stop - start)` iterations, so the
fuel used by `SimulatedClock.ticks` below is sufficient and the fuel never
truncates the sequence; for `interval <= 0` with `start < stop` the source
loop does not terminate. -/
def simTicksAux (stopT interval : Int) : Int → Nat → List Int
  | _, 0 => []
  | current, fuel + 1 =>
    if current < stopT then current :: simTicksAux stopT interval (current + interval) fuel
    else []

/-- The full tick sequence produced by one traversal of the simulated clock. -/
def SimulatedClock.ticks (c : SimulatedClock) : List Int :=
  simTicksAux c.stop c.interval c.start ((c.stop - c.start).toNat + 1)

/-- CLAIM C8: with `stop <= start` the simulated clock produces zero
elements: the loop guard fails at once and the sequence is empty, with no
error raised. -/
theorem simulatedClock_empty_of_stop_le_start (c : SimulatedClock)
    (h : c.stop ≤ c.start) : c.ticks = [] := by
  unfold SimulatedClock.ticks simTicksAux
  simp [not_lt.2 h]

/-- Witness for C8 at the concrete clock `start = 5, stop = 3, interval = 1`. -/
theorem simulatedClock_empty_of_stop_le_start_witness :
    (SimulatedClock.mk 5 3 1).stop ≤ (SimulatedClock.mk 5 3 1).start ∧
      (SimulatedClock.mk 5 3 1).ticks = [] :=
  ⟨by decide, simulatedClock_empty_of_stop_le_start (SimulatedClock.mk 5 3 1) (by decide)⟩

/-- Counterexample to CLAIM C4: constructing a simulated clock with
`interval = 0` (and `start = 0 < 10 = stop`) is not rejected — the
constructor returns the clock and never a configuration error. -/
theorem mkSimulatedClock_zero_interval_not_rejected :
    mkSimulatedClock 0 10 0 = Except.ok ⟨0, 10, 0⟩ ∧
      ∀ e : ConfigError, mkSimulatedClock 0 10 0 ≠ Except.error e := by
  refine ⟨rfl, ?_⟩
  intro e h
  exact Except.noConfusion h

/-- CLAIM C4 (amended): `SimulatedClock` construction performs no validation
at all: every configuration, including a zero or negative interval, is
accepted and no configuration error is ever raised. -/
theorem mkSimulatedClock_accepts_all (start stop interval : Int) :
    mkSimulatedClock start stop interval = Except.ok ⟨start, stop, interval⟩ :=
  rfl

/-- An in-range `getD` lookup returns an element of the list. -/
theorem getD_mem_of_lt {α : Type} :
    ∀ (l : List α) (i : Nat) (d : α), i < l.length → l.getD i d ∈ l := by
  intro l
  induction l with
  | nil => intro i d h; simp at h
  | cons a t ih =>
    intro i d h
    match i with
    | 0 => simp
    | j + 1 =>
      simp only [List.getD_cons_succ]
      exact List.mem_cons_of_mem _ (ih j d (by simpa using h))

/-- The `i`-th value yielded by the simulated-clock loop is
`current + i * interval`: each iteration advances the cursor by `interval`. -/
theorem simTicksAux_getD (s v : Int) :
    ∀ (fuel : Nat) (current : Int) (i : Nat),
      i < (simTicksAux s v current fuel).length →
      (simTicksAux s v current fuel).getD i 0 = current + i * v := by
  intro fuel
  induction fuel with
  | zero => intro current i h; simp [simTicksAux] at h
  | succ n ih =>
    intro current i h
    by_cases hcs : current < s
    · simp only [simTicksAux, if_pos hcs] at h ⊢
      match i with
      | 0 => simp
      | j + 1 =>
        simp only [List.getD_cons_succ]
        rw [ih (current + v) j (by simpa using h)]
        push_cast
        ring
    · simp only [simTicksAux, if_neg hcs, List.length_nil] at h
      omega

/-- Every value yielded by the simulated-clock loop passed the `current < stop`
guard, so it is strictly below `stop`. -/
theorem simTicksAux_mem_lt (s v : Int) :
    ∀ (fuel : Nat) (current : Int), ∀ x ∈ simTicksAux s v current fuel, x < s := by
  intro fuel
  induction fuel with
  | zero => intro current x hx; simp [simTicksAux] at hx
  | succ n ih =>
    intro current x hx
    by_cases hcs : current < s
    · simp only [simTicksAux, if_pos hcs, List.mem_cons] at hx
      rcases hx with rfl | hx
      · exact hcs
      · exact ih (current + v) x hx
    · simp [simTicksAux, if_neg hcs] at hx

/-- With a positive interval and enough fuel, the loop only terminates once
the cursor has reached `stop`: `stop ≤ current + length * interval`. -/
theorem simTicksAux_length_lower (s v : Int) (hv : 1 ≤ v) :
    ∀ (fuel : Nat) (current : Int), (s - current).toNat ≤ fuel →
      s ≤ current + ((simTicksAux s v current fuel).length : Int) * v := by
  intro fuel
  induction fuel with
  | zero =>
    intro current hfuel
    simp only [simTicksAux, List.length_nil, Int.natCast_zero, zero_mul, add_zero]
    omega
  | succ n ih =>
    intro current hfuel
    by_cases hcs : current < s
    · have hstep : (s - (current + v)).toNat ≤ n := by omega
      have := ih (current + v) hstep
      simp only [simTicksAux, if_pos hcs, List.length_cons]
      push_cast
      push_cast at this
      linarith
    · simp only [simTicksAux, if_neg hcs, List.length_nil, Int.natCast_zero, zero_mul,
        add_zero]
      omega

/-- Elements of a full simulated-clock traversal: the `i`-th tick is
`start + i * interval`. -/
theorem SimulatedClock.ticks_getD (c : SimulatedClock) (i : Nat)
    (h : i < c.ticks.length) :
    c.ticks.getD i 0 = c.start + i * c.interval :=
  simTicksAux_getD c.stop c.interval _ c.start i h

/-- CLAIM C3: for `start < stop` and `interval > 0` the simulated clock's
sequence has exactly `⌈(stop - start) / interval⌉` elements, consecutive
elements differ by exactly `interval`, every element is strictly below
`stop`, and the first element is `start`. -/
theorem simulatedClock_spec (c : SimulatedClock)
    (h1 : c.start < c.stop) (h2 : 0 < c.interval) :
    (c.ticks.length : Int) = ⌈((c.stop - c.start : Int) : ℚ) / ((c.interval : Int) : ℚ)⌉
      ∧ (∀ i : Nat, i + 1 < c.ticks.length →
          c.ticks.getD (i + 1) 0 = c.ticks.getD i 0 + c.interval)
      ∧ (∀ x ∈ c.ticks, x < c.stop)
      ∧ c.ticks.head? = some c.start := by
  have hv : 1 ≤ c.interval := h2
  have hub : c.stop ≤ c.start + (c.ticks.length : Int) * c.interval :=
    simTicksAux_length_lower c.stop c.interval hv _ c.start (Nat.le_succ _)
  have hmem : ∀ x ∈ c.ticks, x < c.stop := fun x hx =>
    simTicksAux_mem_lt c.stop c.interval _ c.start x hx
  have hpos : 0 < c.ticks.length := by
    by_contra hzero
    have h0 : c.ticks.length = 0 := by omega
    rw [h0] at hub
    simp at hub
    omega
  refine ⟨?_, ?_, hmem, ?_⟩
  · -- length = ceil((stop - start) / interval)
    obtain ⟨m, hm⟩ : ∃ m, c.ticks.length = m + 1 :=
      ⟨c.ticks.length - 1, by omega⟩
    have hlast_lt : c.start + (m : Int) * c.interval < c.stop := by
      have hmlt : m < c.ticks.length := by omega
      have hval := c.ticks_getD m hmlt
      rw [← hval]
      exact hmem _ (getD_mem_of_lt c.ticks m 0 hmlt)
    have hvq : (0 : ℚ) < ((c.interval : Int) : ℚ) := by exact_mod_cast h2
    symm
    rw [Int.ceil_eq_iff]
    constructor
    · rw [lt_div_iff₀ hvq, hm]
      qify at hlast_lt
      push_cast
      linarith
    · rw [div_le_iff₀ hvq]
      qify at hub
      push_cast
      linarith
  · -- consecutive elements differ by exactly the interval
    intro i h
    rw [c.ticks_getD (i + 1) h, c.ticks_getD i (by omega)]
    push_cast
    ring
  · -- the first element is start
    unfold SimulatedClock.ticks simTicksAux
    simp [h1]

/-- Witness for C3 at the concrete clock `start = 0, stop = 3, interval = 2`
(whose sequence is `[0, 2]`, of length `⌈3 / 2⌉ = 2`). -/
theorem simulatedClock_spec_witness :
    (((SimulatedClock.mk 0 3 2).ticks.length : Int) =
        ⌈(((SimulatedClock.mk 0 3 2).stop - (SimulatedClock.mk 0 3 2).start : Int) : ℚ) /
          (((SimulatedClock.mk 0 3 2).interval : Int) : ℚ)⌉)
      ∧ (∀ i : Nat, i + 1 < (SimulatedClock.mk 0 3 2).ticks.length →
          (SimulatedClock.mk 0 3 2).ticks.getD (i + 1) 0 =
            (SimulatedClock.mk 0 3 2).ticks.getD i 0 + (SimulatedClock.mk 0 3 2).interval)
      ∧ (∀ x ∈ (SimulatedClock.mk 0 3 2).ticks, x < (SimulatedClock.mk 0 3 2).stop)
      ∧ (SimulatedClock.mk 0 3 2).ticks.head? = some (SimulatedClock.mk 0 3 2).start :=
  simulatedClock_spec (SimulatedClock.mk 0 3 2) (by decide) (by decide)

/-- A strategy as consumed by the controller.  `tick` models the external call
`strategy.tick(tick)`: it returns the ordered operations the strategy wants
performed, with `none` modelling a raised exception.  Operations are opaque
values of type `α`.  The `strategy.start` hook is an opaque external call and
is recorded in the run trace by strategy index. -/
structure Strategy (α : Type) where
  tick : Tick → Option (List α)

/-- Observable events of a controller run: `startCall i t` is the call
`strategies[i].start(broker, t)` made by `initialize`; `tickExec t` marks a
call `execute_tick(t)`; `opApply op` is one operation applied to the broker. -/
inductive Ev (α : Type) where
  | startCall (i : Nat) (t : Tick)
  | tickExec (t : Tick)
  | opApply (op : α)
deriving Repr, DecidableEq

/-- The list comprehension
`operations = [strategy.tick(tick) for strategy in self._strategies]` of
`Controller.execute_tick`: each strategy is called in collection order; an
exception (`none`) propagates and the remaining strategies are not called. -/
def collectResults {α : Type} : List (Strategy α) → Tick → Option (List (List α))
  | [], _ => some []
  | s :: rest, t =>
    match s.tick t with
    | none => none
    | some ops =>
      match collectResults rest t with
      | none => none
      | some rs => some (ops :: rs)

/-- `Controller.execute_tick`: collect every strategy's result, drop falsy
(empty) results with `[op for op in operations if op]`, flatten with
`itertools.chain(*operations)`; the returned list is the sequence of
operations applied to the broker, in order.  `none` models an exception
raised by a strategy's `tick`, which propagates before the apply loop runs. -/
def executeTick {α : Type} (strategies : List (Strategy α)) (t : Tick) :
    Option (List α) :=
  match collectResults strategies t with
  | none => none
  | some rs => some ((rs.filter (fun ops => !ops.isEmpty)).flatten)

/-- The apply loop `for operation in itertools.chain(*operations):
operation(self._broker)`, with the broker modelled as the log of operations
applied to it: each application appends one operation to the log. -/
def applyOps {α : Type} : List α → List α → List α
  | b, [] => b
  | b, op :: rest => applyOps (b ++ [op]) rest

/-- One `execute_tick` call as seen by the broker: when a strategy raises,
the apply loop is never reached and the broker log is untouched. -/
def executeTickBroker {α : Type} (strategies : List (Strategy α)) (t : Tick)
    (b : List α) : List α :=
  match executeTick strategies t with
  | none => b
  | some ops => applyOps b ops

/-- The loop of `ControllerBase.initialize`:
`for strategy in self._strategies: strategy.start(self._broker, tick)`,
recorded as one `startCall` event per strategy; `i` is the index of the
first remaining strategy. -/
def initCallsFrom {α : Type} : Nat → List (Strategy α) → Tick → List (Ev α)
  | _, [], _ => []
  | i, _ :: rest, t => Ev.startCall i t :: initCallsFrom (i + 1) rest t

/-- `ControllerBase.initialize(tick)`. -/
def initCalls {α : Type} (strategies : List (Strategy α)) (t : Tick) : List (Ev α) :=
  initCallsFrom 0 strategies t

/-- Outcome of `_run`: the event trace, and the final value of
`self._is_running` (`false` after the assignment that ends a normal `_run`,
`true` when an exception propagated out and skipped that assignment). -/
structure RunResult (α : Type) where
  trace : List (Ev α)
  isRunning : Bool
deriving Repr, DecidableEq

/-- The `for tick in clock` loop of `ThreadedControllerMixin._run`.
`stopFlag k` is the value observed by the `k`-th read of
`self._stop_requested` (the flag is written by another thread; the loop reads
it once immediately before and once immediately after each `execute_tick`
call, so one full iteration consumes two readings). -/
def runLoop {α : Type} (strategies : List (Strategy α)) (stopFlag : Nat → Bool) :
    Nat → List Tick → RunResult α
  | _, [] => ⟨[], false⟩
  | k, t :: rest =>
    if stopFlag k then ⟨[], false⟩
    else
      match executeTick strategies t with
      | none => ⟨[Ev.tickExec t], true⟩
      | some ops =>
        if stopFlag (k + 1) then ⟨Ev.tickExec t :: ops.map Ev.opApply, false⟩
        else
          let r := runLoop strategies stopFlag (k + 2) rest
          ⟨(Ev.tickExec t :: ops.map Ev.opApply) ++ r.trace, r.isRunning⟩

/-- `ThreadedControllerMixin._run`: set `_is_running`, pull the first tick
with `next(clock)` and pass it to `initialize`, run the tick loop over the
remaining ticks, finally clear `_is_running`.  With an empty clock
`next(clock)` raises `StopIteration`, which propagates and leaves
`_is_running` true. -/
def run {α : Type} (strategies : List (Strategy α)) (stopFlag : Nat → Bool) :
    List Tick → RunResult α
  | [] => ⟨[], true⟩
  | first :: rest =>
    let r := runLoop strategies stopFlag 0 rest
    ⟨initCalls strategies first ++ r.trace, r.isRunning⟩

/-- Number of `execute_tick` calls recorded in a trace. -/
def countTickExec {α : Type} (tr : List (Ev α)) : Nat :=
  tr.countP (fun e => match e with | Ev.tickExec _ => true | _ => false)

/-- The operations a trace applied to the broker, in order. -/
def opsOf {α : Type} (tr : List (Ev α)) : List α :=
  tr.filterMap (fun e => match e with | Ev.opApply op => some op | _ => none)

/-- The strategy of the end-to-end scenario: on each tick it returns a single
operation recording the tick value. -/
def recordStrat : Strategy Int :=
  ⟨fun t => some [t]⟩

/-- A strategy returning two operations, for concrete instances. -/
def stratA : Strategy Int :=
  ⟨fun _ => some [1, 2]⟩

/-- A strategy returning one operation, for concrete instances. -/
def stratB : Strategy Int :=
  ⟨fun _ => some [3]⟩

/-- A strategy returning the empty (falsy) result on every tick. -/
def stratEmptyRes : Strategy Int :=
  ⟨fun _ => some []⟩

/-- A strategy whose tick call raises on every tick. -/
def stratFail : Strategy Int :=
  ⟨fun _ => none⟩

/-- Dropping the empty (falsy) per-strategy results before flattening does
not change the flattened operation sequence. -/
theorem flatten_filter_isEmpty {α : Type} :
    ∀ rs : List (List α), (rs.filter (fun ops => !ops.isEmpty)).flatten = rs.flatten := by
  intro rs
  induction rs with
  | nil => rfl
  | cons l rest ih =>
    cases l with
    | nil => simpa [List.filter] using ih
    | cons a l2 => simp [List.filter, ih]

/-- Applying a list of operations appends them, in order, to the broker log. -/
theorem applyOps_eq_append {α : Type} :
    ∀ (ops b : List α), applyOps b ops = b ++ ops := by
  intro ops
  induction ops with
  | nil => intro b; simp [applyOps]
  | cons op rest ih => intro b; simp [applyOps, ih]

/-- CLAIM C2: `execute_tick` applies operations to the broker in
strategy-declaration order, and within each strategy in the order returned:
when the strategies' tick calls return the per-strategy lists `rs` (so the
results were collected in collection order), the operations applied are
exactly `rs.flatten` — every operation of an earlier strategy precedes every
operation of a later one — and the broker log is extended by exactly that
flattened sequence, in order. -/
theorem executeTick_applies_in_order {α : Type} (strategies : List (Strategy α))
    (t : Tick) (rs : List (List α)) (b : List α)
    (h : collectResults strategies t = some rs) :
    executeTick strategies t = some rs.flatten ∧
      executeTickBroker strategies t b = b ++ rs.flatten := by
  constructor
  · simp [executeTick, h, flatten_filter_isEmpty]
  · simp [executeTickBroker, executeTick, h, flatten_filter_isEmpty, applyOps_eq_append]

/-- Witness for C2 at the spec's instance: strategies `[A, B]` with `A.tick`
returning `[op1, op2] = [1, 2]` and `B.tick` returning `[op3] = [3]`; the
broker (starting empty) observes exactly `1, 2, 3` in that order. -/
theorem executeTick_applies_in_order_witness :
    collectResults [stratA, stratB] 0 = some [[1, 2], [3]] ∧
      (executeTick [stratA, stratB] 0 = some ([[1, 2], [3]] : List (List Int)).flatten ∧
        executeTickBroker [stratA, stratB] 0 [] = [] ++ ([[1, 2], [3]] : List (List Int)).flatten) :=
  ⟨rfl, executeTick_applies_in_order [stratA, stratB] 0 [[1, 2], [3]] [] rfl⟩

/-- `collectResults` over a concatenation: the left group runs first and an
exception in it suppresses the right group. -/
theorem collectResults_append {α : Type} :
    ∀ (xs ys : List (Strategy α)) (t : Tick),
      collectResults (xs ++ ys) t =
        (collectResults xs t).bind (fun rx =>
          (collectResults ys t).map (fun ry => rx ++ ry)) := by
  intro xs ys t
  induction xs with
  | nil =>
    simp only [List.nil_append, collectResults, Option.bind_eq_bind]
    cases collectResults ys t <;> rfl
  | cons s rest ih =>
    simp only [List.cons_append, collectResults, List.append_eq]
    cases s.tick t with
    | none => rfl
    | some ops =>
      dsimp only
      rw [ih]
      cases collectResults rest t with
      | none => rfl
      | some rx =>
        cases collectResults ys t with
        | none => rfl
        | some ry => rfl

/-- CLAIM C7: a strategy whose tick call returns an empty (falsy) result
contributes zero operations and does not disturb the flattening of the other
strategies' operations: `execute_tick` behaves exactly as if that strategy
were absent from the collection. -/
theorem executeTick_empty_result_dropped {α : Type} (pre post : List (Strategy α))
    (a : Strategy α) (t : Tick) (h : a.tick t = some []) :
    executeTick (pre ++ a :: post) t = executeTick (pre ++ post) t := by
  unfold executeTick
  rw [collectResults_append pre (a :: post) t, collectResults_append pre post t]
  cases collectResults pre t with
  | none => rfl
  | some rx =>
    simp only [Option.bind_eq_bind, Option.some_bind, collectResults, h]
    cases collectResults post t with
    | none => rfl
    | some rp =>
      simp [List.filter_append, List.filter]

/-- Witness for C7 at the spec's instance: `[A, B]` with `A.tick` returning
`[]` and `B.tick` returning `[op1] = [3]` applies exactly `[3]`. -/
theorem executeTick_empty_result_dropped_witness :
    stratEmptyRes.tick 0 = some [] ∧
      executeTick ([] ++ stratEmptyRes :: [stratB]) 0 = executeTick ([] ++ [stratB]) 0 ∧
      executeTick [stratEmptyRes, stratB] 0 = some [3] ∧
      executeTickBroker [stratEmptyRes, stratB] 0 [] = [3] :=
  ⟨rfl, executeTick_empty_result_dropped [] [stratB] stratEmptyRes 0 rfl, rfl, rfl⟩

/-- When some strategy's tick call raises, the collection comprehension
raises. -/
theorem collectResults_none_of_mem {α : Type} (t : Tick) (s : Strategy α)
    (hfail : s.tick t = none) :
    ∀ strategies : List (Strategy α), s ∈ strategies →
      collectResults strategies t = none := by
  intro strategies
  induction strategies with
  | nil => intro hmem; simp at hmem
  | cons a rest ih =>
    intro hmem
    rcases List.mem_cons.1 hmem with rfl | hmem2
    · simp [collectResults, hfail]
    · simp only [collectResults]
      cases hat : a.tick t with
      | none => rfl
      | some ops => rw [ih hmem2]

/-- CLAIM C9: `execute_tick` collects every strategy's result before applying
any operation, so if any strategy's tick call raises, `execute_tick` raises
and no operation at all is applied: the broker log is unchanged by that
call. -/
theorem executeTick_no_partial_apply {α : Type} (strategies : List (Strategy α))
    (t : Tick) (s : Strategy α) (hmem : s ∈ strategies) (hfail : s.tick t = none) :
    executeTick strategies t = none ∧
      ∀ b : List α, executeTickBroker strategies t b = b := by
  have hc := collectResults_none_of_mem t s hfail strategies hmem
  refine ⟨by simp [executeTick, hc], fun b => ?_⟩
  simp [executeTickBroker, executeTick, hc]

/-- Witness for C9: with a well-behaved strategy followed by a raising one,
`execute_tick` raises and the broker log (here `[7]`) is unchanged. -/
theorem executeTick_no_partial_apply_witness :
    stratFail ∈ [stratB, stratFail] ∧ stratFail.tick 0 = none ∧
      (executeTick [stratB, stratFail] 0 = none ∧
        ∀ b : List Int, executeTickBroker [stratB, stratFail] 0 b = b) :=
  ⟨List.mem_cons_of_mem _ (List.mem_cons_self _ _), rfl,
    executeTick_no_partial_apply [stratB, stratFail] 0 stratFail
      (List.mem_cons_of_mem _ (List.mem_cons_self _ _)) rfl⟩

/-- Loop-branch equation: the before-check reads true, so the loop breaks
with nothing executed. -/
theorem runLoop_cons_stop {α : Type} (strategies : List (Strategy α))
    (stopFlag : Nat → Bool) (k : Nat) (t0 : Tick) (rest : List Tick)
    (hf : stopFlag k = true) :
    runLoop strategies stopFlag k (t0 :: rest) = ⟨[], false⟩ := by
  simp [runLoop, hf]

/-- Loop-branch equation: a strategy raises inside `execute_tick`; the
exception propagates out of `_run` and `_is_running` stays true. -/
theorem runLoop_cons_exc {α : Type} (strategies : List (Strategy α))
    (stopFlag : Nat → Bool) (k : Nat) (t0 : Tick) (rest : List Tick)
    (hf : stopFlag k = false) (het : executeTick strategies t0 = none) :
    runLoop strategies stopFlag k (t0 :: rest) = ⟨[Ev.tickExec t0], true⟩ := by
  simp [runLoop, hf, het]

/-- Loop-branch equation: the tick executes and the after-check reads true,
so the loop breaks right after the tick completes. -/
theorem runLoop_cons_stop2 {α : Type} (strategies : List (Strategy α))
    (stopFlag : Nat → Bool) (k : Nat) (t0 : Tick) (rest : List Tick) (ops : List α)
    (hf : stopFlag k = false) (het : executeTick strategies t0 = some ops)
    (hf2 : stopFlag (k + 1) = true) :
    runLoop strategies stopFlag k (t0 :: rest) =
      ⟨Ev.tickExec t0 :: ops.map Ev.opApply, false⟩ := by
  simp [runLoop, hf, het, hf2]

/-- Loop-branch equation: both checks read false, so the tick executes and
the loop continues with the remaining ticks. -/
theorem runLoop_cons_go {α : Type} (strategies : List (Strategy α))
    (stopFlag : Nat → Bool) (k : Nat) (t0 : Tick) (rest : List Tick) (ops : List α)
    (hf : stopFlag k = false) (het : executeTick strategies t0 = some ops)
    (hf2 : stopFlag (k + 1) = false) :
    runLoop strategies stopFlag k (t0 :: rest) =
      ⟨(Ev.tickExec t0 :: ops.map Ev.opApply) ++
          (runLoop strategies stopFlag (k + 2) rest).trace,
        (runLoop strategies stopFlag (k + 2) rest).isRunning⟩ := by
  simp [runLoop, hf, het, hf2]

/-- The tick loop never calls a strategy's `start` hook. -/
theorem runLoop_no_startCall {α : Type} (strategies : List (Strategy α))
    (stopFlag : Nat → Bool) :
    ∀ (ticks : List Tick) (k i : Nat) (t : Tick),
      Ev.startCall i t ∉ (runLoop strategies stopFlag k ticks).trace := by
  intro ticks
  induction ticks with
  | nil => intro k i t h; simp [runLoop] at h
  | cons t0 rest ih =>
    intro k i t h
    cases hf : stopFlag k with
    | true => rw [runLoop_cons_stop strategies stopFlag k t0 rest hf] at h; simp at h
    | false =>
      cases het : executeTick strategies t0 with
      | none =>
        rw [runLoop_cons_exc strategies stopFlag k t0 rest hf het] at h
        simp at h
      | some ops =>
        cases hf2 : stopFlag (k + 1) with
        | true =>
          rw [runLoop_cons_stop2 strategies stopFlag k t0 rest ops hf het hf2] at h
          simp at h
        | false =>
          rw [runLoop_cons_go strategies stopFlag k t0 rest ops hf het hf2] at h
          simp only [List.cons_append, List.mem_cons, List.mem_append,
            List.mem_map] at h
          rcases h with h | h | h
          · exact Ev.noConfusion h
          · rcases h with ⟨op, _, hop⟩; exact Ev.noConfusion hop
          · exact ih (k + 2) i t h

/-- Start-call events in collection order: `initCallsFrom i` numbers the
remaining strategies `i, i+1, ...`. -/
theorem initCallsFrom_eq_map_range {α : Type} :
    ∀ (strategies : List (Strategy α)) (i : Nat) (t : Tick),
      initCallsFrom i strategies t =
        (List.range strategies.length).map (fun j => (Ev.startCall (i + j) t : Ev α)) := by
  intro strategies
  induction strategies with
  | nil => intro i t; rfl
  | cons s rest ih =>
    intro i t
    rw [initCallsFrom, ih (i + 1), List.length_cons, List.range_succ_eq_map,
      List.map_cons, List.map_map]
    congr 1
    apply List.map_congr_left
    intro a _
    simp only [Function.comp_apply]
    have hsucc : i + 1 + a = i + Nat.succ a := by omega
    rw [hsucc]

/-- `initialize` invokes every strategy's start hook, in collection order,
with the given tick. -/
theorem initCalls_eq_map_range {α : Type} (strategies : List (Strategy α)) (t : Tick) :
    initCalls strategies t =
      (List.range strategies.length).map (fun i => (Ev.startCall i t : Ev α)) := by
  rw [initCalls, initCallsFrom_eq_map_range]
  apply List.map_congr_left
  intro a _
  rw [Nat.zero_add]

/-- CLAIM C5: in every run, `initialize` is called exactly once, with the
first tick pulled from the clock, before any `execute_tick` call: the run
trace begins with the start calls `strategy.start(broker, first)` for
strategies `0, ..., n-1` in collection order, and the rest of the trace (the
whole tick loop) contains no start call at all. -/
theorem run_initCalls_once_before_loop {α : Type} (strategies : List (Strategy α))
    (stopFlag : Nat → Bool) (first : Tick) (rest : List Tick) :
    (run strategies stopFlag (first :: rest)).trace =
        (List.range strategies.length).map (fun i => (Ev.startCall i first : Ev α)) ++
          (runLoop strategies stopFlag 0 rest).trace
      ∧ ∀ (i : Nat) (t : Tick),
          Ev.startCall i t ∉ (runLoop strategies stopFlag 0 rest).trace := by
  constructor
  · show initCalls strategies first ++ (runLoop strategies stopFlag 0 rest).trace = _
    rw [initCalls_eq_map_range]
  · intro i t
    exact runLoop_no_startCall strategies stopFlag rest 0 i t

/-- Number of `execute_tick` calls in a singleton start-call block: none. -/
theorem countTickExec_startCall_map {α : Type} (n : Nat) (t : Tick) :
    countTickExec ((List.range n).map (fun i => (Ev.startCall i t : Ev α))) = 0 := by
  rw [countTickExec, List.countP_eq_zero]
  intro e he
  rcases List.mem_map.1 he with ⟨i, _, rfl⟩
  simp

/-- Applied operations are not `execute_tick` markers. -/
theorem countTickExec_opApply_map {α : Type} (ops : List α) :
    countTickExec (ops.map Ev.opApply) = 0 := by
  rw [countTickExec, List.countP_eq_zero]
  intro e he
  rcases List.mem_map.1 he with ⟨op, _, rfl⟩
  simp

/-- `countTickExec` adds over concatenation. -/
theorem countTickExec_append {α : Type} (tr1 tr2 : List (Ev α)) :
    countTickExec (tr1 ++ tr2) = countTickExec tr1 + countTickExec tr2 :=
  List.countP_append _ _ _

/-- A leading `tickExec` marker adds one to the count. -/
theorem countTickExec_cons_tickExec {α : Type} (t : Tick) (tr : List (Ev α)) :
    countTickExec (Ev.tickExec t :: tr) = countTickExec tr + 1 := by
  simp [countTickExec, List.countP_cons]

/-- If the before-check of loop iteration `j` (flag reading `k + 2j`) observes
a stop request, at most `j` ticks are executed. -/
theorem runLoop_countTickExec_le_before {α : Type} (strategies : List (Strategy α))
    (stopFlag : Nat → Bool) :
    ∀ (ticks : List Tick) (k j : Nat), stopFlag (k + 2 * j) = true →
      countTickExec (runLoop strategies stopFlag k ticks).trace ≤ j := by
  intro ticks
  induction ticks with
  | nil => intro k j hstop; simp [runLoop, countTickExec]
  | cons t0 rest ih =>
    intro k j hstop
    cases hf : stopFlag k with
    | true =>
      rw [runLoop_cons_stop strategies stopFlag k t0 rest hf]
      simp [countTickExec]
    | false =>
      cases j with
      | zero =>
        exfalso
        have hk : stopFlag k = true := by simpa using hstop
        rw [hf] at hk
        exact Bool.noConfusion hk
      | succ j2 =>
        cases het : executeTick strategies t0 with
        | none =>
          rw [runLoop_cons_exc strategies stopFlag k t0 rest hf het]
          show countTickExec [Ev.tickExec t0] ≤ j2 + 1
          rw [show (Ev.tickExec t0 : Ev α) :: ([] : List (Ev α)) = Ev.tickExec t0 :: [] from rfl,
            countTickExec_cons_tickExec]
          simp [countTickExec]
        | some ops =>
          cases hf2 : stopFlag (k + 1) with
          | true =>
            rw [runLoop_cons_stop2 strategies stopFlag k t0 rest ops hf het hf2]
            show countTickExec (Ev.tickExec t0 :: ops.map Ev.opApply) ≤ j2 + 1
            rw [countTickExec_cons_tickExec, countTickExec_opApply_map]
            omega
          | false =>
            rw [runLoop_cons_go strategies stopFlag k t0 rest ops hf het hf2]
            show countTickExec ((Ev.tickExec t0 :: ops.map Ev.opApply) ++
              (runLoop strategies stopFlag (k + 2) rest).trace) ≤ j2 + 1
            rw [countTickExec_append, countTickExec_cons_tickExec,
              countTickExec_opApply_map]
            have hstep : stopFlag ((k + 2) + 2 * j2) = true := by
              have harith : (k + 2) + 2 * j2 = k + 2 * (j2 + 1) := by ring
              rw [harith]
              exact hstop
            have := ih (k + 2) j2 hstep
            omega

/-- If the after-check of loop iteration `j` (flag reading `k + 2j + 1`)
observes a stop request, at most `j + 1` ticks are executed: only the tick in
flight completes. -/
theorem runLoop_countTickExec_le_after {α : Type} (strategies : List (Strategy α))
    (stopFlag : Nat → Bool) :
    ∀ (ticks : List Tick) (k j : Nat), stopFlag (k + 2 * j + 1) = true →
      countTickExec (runLoop strategies stopFlag k ticks).trace ≤ j + 1 := by
  intro ticks
  induction ticks with
  | nil => intro k j hstop; simp [runLoop, countTickExec]
  | cons t0 rest ih =>
    intro k j hstop
    cases hf : stopFlag k with
    | true =>
      rw [runLoop_cons_stop strategies stopFlag k t0 rest hf]
      simp [countTickExec]
    | false =>
      cases het : executeTick strategies t0 with
      | none =>
        rw [runLoop_cons_exc strategies stopFlag k t0 rest hf het]
        show countTickExec [Ev.tickExec t0] ≤ j + 1
        rw [show ([Ev.tickExec t0] : List (Ev α)) = Ev.tickExec t0 :: [] from rfl,
          countTickExec_cons_tickExec]
        simp [countTickExec]
      | some ops =>
        cases hf2 : stopFlag (k + 1) with
        | true =>
          rw [runLoop_cons_stop2 strategies stopFlag k t0 rest ops hf het hf2]
          show countTickExec (Ev.tickExec t0 :: ops.map Ev.opApply) ≤ j + 1
          rw [countTickExec_cons_tickExec, countTickExec_opApply_map]
          omega
        | false =>
          cases j with
          | zero =>
            exfalso
            have hk1 : stopFlag (k + 1) = true := by simpa using hstop
            rw [hf2] at hk1
            exact Bool.noConfusion hk1
          | succ j2 =>
            rw [runLoop_cons_go strategies stopFlag k t0 rest ops hf het hf2]
            show countTickExec ((Ev.tickExec t0 :: ops.map Ev.opApply) ++
              (runLoop strategies stopFlag (k + 2) rest).trace) ≤ j2 + 1 + 1
            rw [countTickExec_append, countTickExec_cons_tickExec,
              countTickExec_opApply_map]
            have hstep : stopFlag ((k + 2) + 2 * j2 + 1) = true := by
              have harith : (k + 2) + 2 * j2 + 1 = k + 2 * (j2 + 1) + 1 := by ring
              rw [harith]
              exact hstop
            have := ih (k + 2) j2 hstep
            omega

/-- When no strategy raises, the tick loop always reaches the final
`self._is_running = False` assignment. -/
theorem runLoop_isRunning_false {α : Type} (strategies : List (Strategy α))
    (stopFlag : Nat → Bool) :
    ∀ (ticks : List Tick) (k : Nat),
      (∀ t ∈ ticks, executeTick strategies t ≠ none) →
      (runLoop strategies stopFlag k ticks).isRunning = false := by
  intro ticks
  induction ticks with
  | nil => intro k hok; rfl
  | cons t0 rest ih =>
    intro k hok
    cases hf : stopFlag k with
    | true => rw [runLoop_cons_stop strategies stopFlag k t0 rest hf]
    | false =>
      cases het : executeTick strategies t0 with
      | none => exact absurd het (hok t0 (List.mem_cons_self t0 rest))
      | some ops =>
        cases hf2 : stopFlag (k + 1) with
        | true => rw [runLoop_cons_stop2 strategies stopFlag k t0 rest ops hf het hf2]
        | false =>
          rw [runLoop_cons_go strategies stopFlag k t0 rest ops hf het hf2]
          exact ih (k + 2) (fun t ht => hok t (List.mem_cons_of_mem _ ht))

/-- With the stop flag already true at every reading, the loop body never
runs. -/
theorem runLoop_true_flag {α : Type} (strategies : List (Strategy α)) :
    ∀ (ticks : List Tick) (k : Nat),
      runLoop strategies (fun _ => true) k ticks = ⟨[], false⟩ := by
  intro ticks k
  cases ticks with
  | nil => rfl
  | cons t0 rest => exact runLoop_cons_stop strategies (fun _ => true) k t0 rest rfl

/-- CLAIM C6: the stop flag is read immediately before and immediately after
each `execute_tick` call (readings `2j` and `2j + 1` for loop iteration `j`):
a stop observed at the before-check of iteration `j` leaves at most `j`
executed ticks, one observed at the after-check leaves at most `j + 1` — once
a stop is requested, at most the tick in flight is executed; and on loop
exit (no strategy exception) `is_running` is false. -/
theorem run_stop_checked_before_after {α : Type} (strategies : List (Strategy α))
    (stopFlag : Nat → Bool) (first : Tick) (rest : List Tick)
    (_hmono : ∀ k, stopFlag k = true → stopFlag (k + 1) = true) :
    (∀ j : Nat, stopFlag (2 * j) = true →
        countTickExec (run strategies stopFlag (first :: rest)).trace ≤ j)
      ∧ (∀ j : Nat, stopFlag (2 * j + 1) = true →
          countTickExec (run strategies stopFlag (first :: rest)).trace ≤ j + 1)
      ∧ ((∀ t ∈ rest, executeTick strategies t ≠ none) →
          (run strategies stopFlag (first :: rest)).isRunning = false) := by
  have hcount : countTickExec (run strategies stopFlag (first :: rest)).trace
      = countTickExec (runLoop strategies stopFlag 0 rest).trace := by
    show countTickExec (initCalls strategies first ++
      (runLoop strategies stopFlag 0 rest).trace) = _
    rw [countTickExec_append, initCalls_eq_map_range, countTickExec_startCall_map]
    omega
  refine ⟨fun j hj => ?_, fun j hj => ?_, fun hok => ?_⟩
  · rw [hcount]
    apply runLoop_countTickExec_le_before strategies stopFlag rest 0 j
    simpa using hj
  · rw [hcount]
    apply runLoop_countTickExec_le_after strategies stopFlag rest 0 j
    simpa using hj
  · show (runLoop strategies stopFlag 0 rest).isRunning = false
    exact runLoop_isRunning_false strategies stopFlag rest 0 hok

/-- Witness for C6: one recording strategy, ticks `0 :: [1, 2]`, flag true at
every reading. -/
theorem run_stop_checked_before_after_witness :
    (∀ j : Nat, (fun _ : Nat => true) (2 * j) = true →
        countTickExec (run [recordStrat] (fun _ => true) (0 :: [1, 2])).trace ≤ j)
      ∧ (∀ j : Nat, (fun _ : Nat => true) (2 * j + 1) = true →
          countTickExec (run [recordStrat] (fun _ => true) (0 :: [1, 2])).trace ≤ j + 1)
      ∧ ((∀ t ∈ [1, 2], executeTick [recordStrat] t ≠ none) →
          (run [recordStrat] (fun _ => true) (0 :: [1, 2])).isRunning = false) :=
  run_stop_checked_before_after [recordStrat] (fun _ => true) 0 [1, 2] (fun _ h => h)

/-- CLAIM C10: the tick loop never consults the stop flag before
initialization: whatever the flag readings, the run trace starts with the
full block of start calls for the first tick; with the flag already true at
every reading the run still performs all start calls and then exits with
zero `execute_tick` calls — the stop flag can only prevent `execute_tick`,
never `initialize`. -/
theorem run_flag_cannot_skip_start {α : Type} (strategies : List (Strategy α))
    (first : Tick) (rest : List Tick) :
    (∀ stopFlag : Nat → Bool, ∃ tail,
        (run strategies stopFlag (first :: rest)).trace =
          (List.range strategies.length).map (fun i => (Ev.startCall i first : Ev α)) ++ tail)
      ∧ (run strategies (fun _ => true) (first :: rest)).trace =
          (List.range strategies.length).map (fun i => (Ev.startCall i first : Ev α))
      ∧ countTickExec (run strategies (fun _ => true) (first :: rest)).trace = 0 := by
  refine ⟨fun stopFlag => ⟨(runLoop strategies stopFlag 0 rest).trace, ?_⟩, ?_, ?_⟩
  · show initCalls strategies first ++ (runLoop strategies stopFlag 0 rest).trace = _
    rw [initCalls_eq_map_range]
  · show initCalls strategies first ++
      (runLoop strategies (fun _ => true) 0 rest).trace = _
    rw [runLoop_true_flag]
    show initCalls strategies first ++ ([] : List (Ev α)) = _
    rw [List.append_nil, initCalls_eq_map_range]
  · show countTickExec (initCalls strategies first ++
      (runLoop strategies (fun _ => true) 0 rest).trace) = 0
    rw [runLoop_true_flag]
    show countTickExec (initCalls strategies first ++ ([] : List (Ev α))) = 0
    rw [List.append_nil, initCalls_eq_map_range, countTickExec_startCall_map]

/-- Bound used to pin down concrete tick-sequence lengths. -/
theorem SimulatedClock.ticks_length_lower (c : SimulatedClock) (h2 : 0 < c.interval) :
    c.stop ≤ c.start + (c.ticks.length : Int) * c.interval :=
  simTicksAux_length_lower c.stop c.interval (by omega) _ c.start (Nat.le_succ _)

/-- The last produced tick is still below `stop`. -/
theorem SimulatedClock.ticks_last_lt (c : SimulatedClock) (m : Nat)
    (h : c.ticks.length = m + 1) :
    c.start + (m : Int) * c.interval < c.stop := by
  have hmlt : m < c.ticks.length := by omega
  have hval := c.ticks_getD m hmlt
  rw [← hval]
  exact simTicksAux_mem_lt c.stop c.interval _ c.start _ (getD_mem_of_lt _ _ _ hmlt)

/-- A list of length three is the list of its three entries. -/
theorem list_eq_three {α : Type} (l : List α) (d : α) (h : l.length = 3) :
    l = [l.getD 0 d, l.getD 1 d, l.getD 2 d] := by
  cases l with
  | nil => simp at h
  | cons a l1 =>
    cases l1 with
    | nil => simp at h
    | cons b l2 =>
      cases l2 with
      | nil => simp at h
      | cons c l3 =>
        cases l3 with
        | nil => rfl
        | cons e l4 => simp [List.length_cons] at h

/-- CLAIM C1 (amended): for the end-to-end scenario — simulated clock
`start = T0, stop = T0 + 3, interval = 1`, one strategy returning on each
tick call a single operation recording the tick value, and no stop request —
the clock yields `[T0, T0+1, T0+2]`; the first tick `T0` is consumed by
`initialize` and never passed to `execute_tick`, so the broker observes
exactly the 2 operations `T0+1, T0+2`, in that order, and the run terminates
normally without any stop() call. -/
theorem run_simulated_three_tick_scenario (T0 : Int) :
    (SimulatedClock.mk T0 (T0 + 3) 1).ticks = [T0, T0 + 1, T0 + 2]
      ∧ opsOf (run [recordStrat] (fun _ => false)
            (SimulatedClock.mk T0 (T0 + 3) 1).ticks).trace = [T0 + 1, T0 + 2]
      ∧ (run [recordStrat] (fun _ => false)
            (SimulatedClock.mk T0 (T0 + 3) 1).ticks).isRunning = false := by
  have hlb : T0 + 3 ≤ T0 + (((SimulatedClock.mk T0 (T0 + 3) 1).ticks.length : Int)) * 1 :=
    SimulatedClock.ticks_length_lower (SimulatedClock.mk T0 (T0 + 3) 1) (by norm_num)
  have hlen : (SimulatedClock.mk T0 (T0 + 3) 1).ticks.length = 3 := by
    obtain ⟨m, hm⟩ : ∃ m, (SimulatedClock.mk T0 (T0 + 3) 1).ticks.length = m + 1 := by
      refine ⟨(SimulatedClock.mk T0 (T0 + 3) 1).ticks.length - 1, ?_⟩
      omega
    have hlast : T0 + (m : Int) * 1 < T0 + 3 :=
      SimulatedClock.ticks_last_lt (SimulatedClock.mk T0 (T0 + 3) 1) m hm
    omega
  have hticks : (SimulatedClock.mk T0 (T0 + 3) 1).ticks = [T0, T0 + 1, T0 + 2] := by
    have he := list_eq_three (SimulatedClock.mk T0 (T0 + 3) 1).ticks 0 hlen
    have h0 := (SimulatedClock.mk T0 (T0 + 3) 1).ticks_getD 0 (by omega)
    have h1 := (SimulatedClock.mk T0 (T0 + 3) 1).ticks_getD 1 (by omega)
    have h2 := (SimulatedClock.mk T0 (T0 + 3) 1).ticks_getD 2 (by omega)
    rw [he, h0, h1, h2]
    norm_num
  refine ⟨hticks, ?_, ?_⟩
  · rw [hticks]
    rfl
  · rw [hticks]
    rfl

/-- Counterexample to CLAIM C1: at `T0 = 0` the broker observes the two
operations `[1, 2]` — not three operations `[0, 1, 2]` — because the first
tick `0` is consumed by `initialize` and never reaches `execute_tick`. -/
theorem run_simulated_three_tick_scenario_cex :
    opsOf (run [recordStrat] (fun _ => false)
        (SimulatedClock.mk 0 3 1).ticks).trace = [1, 2]
      ∧ opsOf (run [recordStrat] (fun _ => false)
          (SimulatedClock.mk 0 3 1).ticks).trace ≠ [0, 1, 2]
      ∧ (opsOf (run [recordStrat] (fun _ => false)
          (SimulatedClock.mk 0 3 1).ticks).trace).length ≠ 3 := by
  decide

end Trader
